import Mathlib

/-!
Verification of the PLY point-cloud chunker (`tools/ply_chunker.py`).

The Python source is shallowly embedded below.  Coordinates, random draws and
all derived quantities are modelled as exact rationals (`ℚ`), the usual
idealisation of the source's IEEE floats; none of the verified properties
depends on floating-point rounding.  The one transcendental operation of the
source, `math.sqrt` in the distance computation, is handled by carrying the
*squared* distance of each vertex through the embedding: sorting by squared
distance agrees with sorting by distance, and the single place where the
(un-squared) distance is consumed — the probability test
`random.random() < final_probability` — is embedded as an equivalent decidable
comparison on squared quantities (lemma `selects_eq_true_iff` proves that the
decidable form coincides with the real-number comparison written in the
source).

`random.random()` is modelled by an explicit stream `draws : ℕ → ℚ` together
with a counter of how many draws have been consumed; the source draws exactly
one sample per scanned vertex.

Python raising an exception (the `ZeroDivisionError` in
`chunk_vertices_radial` when `max_distance == 0`) is modelled by `Option`:
`none` is an abnormal termination.
-/

namespace PLYChunker

/-- 3D vertex with color, from `@dataclass Vertex` (ply_chunker.py:23-32).
`full_data` (an opaque per-line payload used only when re-emitting ASCII
files) is omitted: the chunk writer never reads it. -/
structure Vertex where
  x : ℚ
  y : ℚ
  z : ℚ
  r : ℤ := 255
  g : ℤ := 255
  b : ℤ := 255
deriving DecidableEq

/-- Axis-aligned bounding box, the `{"min": {...}, "max": {...}}` dictionary
of `calculate_bounding_box` flattened into six fields. -/
structure BBox where
  minX : ℚ
  minY : ℚ
  minZ : ℚ
  maxX : ℚ
  maxY : ℚ
  maxZ : ℚ
deriving DecidableEq

/-- Running minimum of `f` over a vertex list, seeded with `a`: one component
of the accumulator loop of `calculate_bounding_box` (lines 153-159). -/
def foldMin (f : Vertex → ℚ) (a : ℚ) (l : List Vertex) : ℚ :=
  l.foldl (fun m v => min m (f v)) a

/-- Running maximum of `f` over a vertex list, seeded with `a`. -/
def foldMax (f : Vertex → ℚ) (a : ℚ) (l : List Vertex) : ℚ :=
  l.foldl (fun m v => max m (f v)) a

/-- `PLYChunker.calculate_bounding_box` (lines 145-164).  The source seeds the
accumulators with `±inf` and folds over all vertices; over `ℚ` this is the
same as seeding with the first vertex's coordinates and folding over the rest.
The empty case returns the all-zero box exactly as in lines 147-148. -/
def calculate_bounding_box : List Vertex → BBox
  | [] => ⟨0, 0, 0, 0, 0, 0⟩
  | v :: rest =>
    ⟨foldMin (fun u => u.x) v.x rest,
     foldMin (fun u => u.y) v.y rest,
     foldMin (fun u => u.z) v.z rest,
     foldMax (fun u => u.x) v.x rest,
     foldMax (fun u => u.y) v.y rest,
     foldMax (fun u => u.z) v.z rest⟩

/-- `max_dimension = max(size_x, size_y, size_z)` of `chunk_ply_file`
(lines 359-362). -/
def maxDimension (bb : BBox) : ℚ :=
  max (bb.maxX - bb.minX) (max (bb.maxY - bb.minY) (bb.maxZ - bb.minZ))

/-- One vertex under `vertex.x *= scale_factor` etc. (lines 371-374). -/
def scaleVertex (k : ℚ) (v : Vertex) : Vertex :=
  { v with x := v.x * k, y := v.y * k, z := v.z * k }

/-- The auto-scaling step of `chunk_ply_file` (lines 356-378): if the largest
bounding-box extent exceeds 50, every vertex is multiplied in place by
`20.0 / max_dimension`; otherwise the vertices are left unchanged. -/
def scaleVertices (vertices : List Vertex) : List Vertex :=
  let original_bbox := calculate_bounding_box vertices
  let max_dimension := maxDimension original_bbox
  if 50 < max_dimension then
    vertices.map (scaleVertex (20 / max_dimension))
  else
    vertices

/-- Working item of `chunk_vertices_radial`: the tuple
`(distance, original_index, vertex)` of line 185, except that the *squared*
distance is stored (`dsq = distance²`); see the module comment. -/
structure WItem where
  dsq : ℚ
  idx : ℕ
  vtx : Vertex
deriving DecidableEq

/-- Squared Euclidean distance from the origin,
`vertex.x * vertex.x + vertex.y * vertex.y + vertex.z * vertex.z` (line 184);
the source takes `math.sqrt` of this value. -/
def distSq (v : Vertex) : ℚ :=
  v.x * v.x + v.y * v.y + v.z * v.z

/-- `vertices_per_chunk = max(1, self.target_chunk_size_bytes // bytes_per_vertex)`
with `bytes_per_vertex = 20` (lines 171-173). -/
def verticesPerChunk (targetBytes : ℕ) : ℕ :=
  max 1 (targetBytes / 20)

/-- The `vertex_distances` list built in lines 183-185 (squared distances). -/
def vertexDistances (vertices : List Vertex) : List WItem :=
  vertices.enum.map fun p => ⟨distSq p.2, p.1, p.2⟩

/-- `max_distance` of lines 181-186, squared: the running maximum starts at 0
and `max(max_distance, distance)` commutes with squaring on nonnegatives. -/
def maxDistSq (vertices : List Vertex) : ℚ :=
  (vertexDistances vertices).foldl (fun m w => max m w.dsq) 0

/-- `chunk_boost = min(0.3, (chunk_num - 1) * 0.1)` (line 210). -/
def chunkBoost (chunkNum : ℕ) : ℚ :=
  min (3/10) (((chunkNum : ℚ) - 1) * (1/10))

/-- The non-flush selection test of lines 207-218:
`random.random() < min(1.0, (1.0 - distance / max_distance * 0.8) + chunk_boost)`,
rewritten over squared distances so that it is decidable over `ℚ`
(`draw < min 1 (1 - √(dsq/maxDsq)·0.8 + boost)` iff
`draw < 1 ∧ draw < 1 + boost ∧ (16/25)·(dsq/maxDsq) < (1 + boost - draw)²`;
proved as `selects_eq_true_iff`). -/
def selects (draw dsq maxDsq boost : ℚ) : Bool :=
  decide (draw < 1) && (decide (draw < 1 + boost) &&
    decide (16/25 * (dsq / maxDsq) < (1 + boost - draw)^2))

/-- One pass of the `for i, (distance, original_index, vertex) in
enumerate(remaining_vertices)` scan (lines 204-224), returning the selected
items, the items left over, and the next unused index of the draw stream.

Arguments after the draw stream: the list still to scan, the number of
vertices selected so far in this pass (`len(current_chunk)`), and the draw
counter.  The source computes `base_probability = 1.0 - (distance /
max_distance * 0.8)` *before* the flush override, so a scan over a non-empty
list raises `ZeroDivisionError` (here: `none`) whenever `max_distance == 0`.
In a flush pass (`len(remaining) <= vertices_per_chunk * 1.5`) the probability
is overridden to `1.0` and the test degenerates to `random.random() < 1.0`.
The scan stops (`break`) as soon as `len(current_chunk) >=
vertices_per_chunk`; unscanned items stay remaining. -/
def scanPass (vpc : ℕ) (flush : Bool) (boost maxDsq : ℚ) (draws : ℕ → ℚ) :
    List WItem → ℕ → ℕ → Option (List WItem × List WItem × ℕ)
  | [], _, k => some ([], [], k)
  | w :: rest, selCount, k =>
    if maxDsq = 0 then none
    else
      let final : Bool :=
        if flush then decide (draws k < 1) else selects (draws k) w.dsq maxDsq boost
      if final then
        if vpc ≤ selCount + 1 then some ([w], rest, k + 1)
        else
          (scanPass vpc flush boost maxDsq draws rest (selCount + 1) (k + 1)).map
            fun out => (w :: out.1, out.2.1, out.2.2)
      else
        (scanPass vpc flush boost maxDsq draws rest selCount (k + 1)).map
          fun out => (out.1, w :: out.2.1, out.2.2)

/-- The `while remaining_vertices:` loop of lines 198-251.  `fuel` is a bound
on the number of remaining passes; the callers pass `remaining.length + 1`,
which `chunkLoopAux_isSome` proves sufficient (each pass either selects at
least one vertex, strictly shrinking the remaining list, or force-flushes
everything and stops).  A pass whose scan selects nothing while vertices
remain is the stall safety valve of lines 243-251: all remaining vertices
become one final chunk and the loop breaks.  Chunks are appended only when
non-empty (line 231). -/
def chunkLoopAux (vpc : ℕ) (maxDsq : ℚ) (draws : ℕ → ℚ) :
    ℕ → List WItem → ℕ → ℕ → Option (List (List WItem))
  | 0, _, _, _ => none
  | _ + 1, [], _, _ => some []
  | fuel + 1, w :: rest, chunkNum, k =>
    let flush : Bool := decide (((w :: rest).length : ℚ) ≤ (vpc : ℚ) * (3/2))
    let boost : ℚ := chunkBoost chunkNum
    (scanPass vpc flush boost maxDsq draws (w :: rest) 0 k).bind fun out =>
      if out.1.isEmpty then some [w :: rest]
      else
        (chunkLoopAux vpc maxDsq draws fuel out.2.1 (chunkNum + 1) out.2.2).map
          fun cs => out.1 :: cs

/-- `PLYChunker.chunk_vertices_radial` (lines 166-254) at the level of working
items, so that every produced group still carries the original index of each
vertex.  The source sorts by distance with Python's stable sort; sorting the
squared distances with the stable `List.mergeSort` yields the same order. -/
def chunkVerticesRadialIdx (targetBytes : ℕ) (draws : ℕ → ℚ) (vertices : List Vertex) :
    Option (List (List WItem)) :=
  let vpc := verticesPerChunk targetBytes
  let sorted := (vertexDistances vertices).mergeSort fun a b => decide (a.dsq ≤ b.dsq)
  chunkLoopAux vpc (maxDistSq vertices) draws (sorted.length + 1) sorted 1 0

/-- `PLYChunker.chunk_vertices_radial` proper: the source keeps only the
vertex component of each selected tuple (`current_chunk.append(vertex)`,
line 219). -/
def chunk_vertices_radial (targetBytes : ℕ) (draws : ℕ → ℚ) (vertices : List Vertex) :
    Option (List (List Vertex)) :=
  (chunkVerticesRadialIdx targetBytes draws vertices).map fun cs =>
    cs.map fun c => c.map WItem.vtx

/-- The 8 anchor vertices of `write_ply_chunk` (lines 285-294), in source
order, all colored black. -/
def anchor_points (bb : BBox) : List Vertex :=
  [⟨bb.minX, bb.minY, bb.minZ, 0, 0, 0⟩,
   ⟨bb.maxX, bb.minY, bb.minZ, 0, 0, 0⟩,
   ⟨bb.minX, bb.maxY, bb.minZ, 0, 0, 0⟩,
   ⟨bb.minX, bb.minY, bb.maxZ, 0, 0, 0⟩,
   ⟨bb.maxX, bb.maxY, bb.minZ, 0, 0, 0⟩,
   ⟨bb.maxX, bb.minY, bb.maxZ, 0, 0, 0⟩,
   ⟨bb.minX, bb.maxY, bb.maxZ, 0, 0, 0⟩,
   ⟨bb.maxX, bb.maxY, bb.maxZ, 0, 0, 0⟩]

/-- The vertex list that `write_ply_chunk` (lines 273-328) actually encodes
into a chunk file: the group's real vertices followed by the 8 anchors
(`chunk_vertices = vertices.copy(); chunk_vertices.extend(anchor_points)`).
The binary encoding itself is external I/O and is not modelled. -/
def write_ply_chunk_vertices (vertices : List Vertex) (overall_bbox : BBox) : List Vertex :=
  vertices ++ anchor_points overall_bbox

/-- Per-chunk manifest entry (`ChunkInfo`, lines 34-41).  `filename` and
`file_size` are produced by external I/O (string formatting and
`os.path.getsize`) and are not modelled. -/
structure ChunkInfo where
  vertex_count : ℕ
  bounding_box : BBox
  priority : ℕ
deriving DecidableEq

/-- The manifest dictionary assembled in lines 411-427 (computable fields). -/
structure Manifest where
  total_vertices : ℕ
  chunk_count : ℕ
  overall_bounding_box : BBox
  chunks : List ChunkInfo
deriving DecidableEq

/-- `PLYChunker.chunk_ply_file` (lines 330-438) from the point where the
vertex list has been decoded: scale normalization, overall bounding box,
radial chunking, and manifest assembly.  File parsing and chunk writing are
external I/O; `none` models the run aborting with an uncaught exception. -/
def chunk_ply_file (targetBytes : ℕ) (draws : ℕ → ℚ) (vertices : List Vertex) :
    Option Manifest :=
  let scaled := scaleVertices vertices
  let overall_bbox := calculate_bounding_box scaled
  (chunk_vertices_radial targetBytes draws scaled).map fun groups =>
    { total_vertices := scaled.length
      chunk_count := groups.length
      overall_bounding_box := overall_bbox
      chunks := groups.enum.map fun p =>
        { vertex_count := p.2.length
          bounding_box := calculate_bounding_box p.2
          priority := p.1 } }

/-- `f.readline()` of `analyze_ply_file` after decode/strip, as a function of
the line index: past the end of the file Python's `readline` returns the
empty bytestring forever, which strips to `""`. -/
def readlineStripped (fileLines : List String) (i : ℕ) : String :=
  fileLines.getD i ""

/-- The header scan of `analyze_ply_file` (lines 63-70): read lines until one
equals `end_header`.  The source is an unbounded `while True:`; `fuel` counts
loop iterations, and `none` means the loop is still running after `fuel`
iterations — so `∀ fuel, ... = none` exhibits non-termination.  On success the
result is the number of lines consumed. -/
def headerScan (fileLines : List String) : ℕ → ℕ → Option ℕ
  | 0, _ => none
  | fuel + 1, i =>
    if readlineStripped fileLines i = "end_header" then some (i + 1)
    else headerScan fileLines fuel (i + 1)

/-- A vertex lies (weakly) inside a bounding box on all three axes; used to
state the anchor-point property of `write_ply_chunk`. -/
def insideBBox (bb : BBox) (v : Vertex) : Prop :=
  bb.minX ≤ v.x ∧ v.x ≤ bb.maxX ∧ bb.minY ≤ v.y ∧ v.y ≤ bb.maxY ∧
    bb.minZ ≤ v.z ∧ v.z ≤ bb.maxZ

/-! Concrete data used to instantiate the theorems below on explicit inputs.
`40` target bytes gives `vertices_per_chunk = max 1 (40 / 20) = 2`. -/

/-- Concrete test vertex at distance 1 from the origin. -/
def vB1 : Vertex := ⟨1, 0, 0, 255, 255, 255⟩

/-- Concrete test vertex at distance 2 from the origin. -/
def vB2 : Vertex := ⟨2, 0, 0, 255, 255, 255⟩

/-- Concrete test vertex at distance 3 from the origin. -/
def vB3 : Vertex := ⟨3, 0, 0, 255, 255, 255⟩

/-- Concrete test vertex at the origin (distance 0). -/
def vO : Vertex := ⟨0, 0, 0, 255, 255, 255⟩

/-- Working items corresponding to `[vB1, vB2, vB3]`. -/
def wB1 : WItem := ⟨1, 0, vB1⟩

/-- Working item for `vB2` (squared distance 4, original index 1). -/
def wB2 : WItem := ⟨4, 1, vB2⟩

/-- Working item for `vB3` (squared distance 9, original index 2). -/
def wB3 : WItem := ⟨9, 2, vB3⟩

/-- A constant draw stream: every uniform sample comes out `1/2 ∈ [0, 1)`. -/
def halfDraws : ℕ → ℚ := fun _ => 1/2

/-- Two vertices whose bounding box has maximum extent 100 (> 50), so the
scale normalizer fires on them. -/
def demoVs : List Vertex := [⟨0, 0, 0, 255, 255, 255⟩, ⟨100, 0, 0, 255, 255, 255⟩]

/-- The manifest produced by `chunk_ply_file 40 halfDraws [vB1]`. -/
def demoManifest : Manifest :=
  { total_vertices := 1
    chunk_count := 1
    overall_bounding_box := ⟨1, 0, 0, 1, 0, 0⟩
    chunks := [{ vertex_count := 1, bounding_box := ⟨1, 0, 0, 1, 0, 0⟩, priority := 0 }] }

/-! ### Basic lemmas about the scan pass -/

theorem scanPass_perm (vpc : ℕ) (flush : Bool) (boost maxDsq : ℚ) (draws : ℕ → ℚ) :
    ∀ (l : List WItem) (c k : ℕ) (sel rem : List WItem) (k' : ℕ),
      scanPass vpc flush boost maxDsq draws l c k = some (sel, rem, k') →
      (sel ++ rem).Perm l := by
  intro l
  induction l with
  | nil =>
    intro c k sel rem k' h
    simp only [scanPass, Option.some.injEq, Prod.mk.injEq] at h
    obtain ⟨h1, h2, -⟩ := h
    subst h1; subst h2
    exact List.Perm.refl _
  | cons w rest ih =>
    intro c k sel rem k' h
    by_cases hm0 : maxDsq = 0
    · simp [scanPass, hm0] at h
    · simp only [scanPass, if_neg hm0] at h
      by_cases hfin :
          (if flush then decide (draws k < 1) else selects (draws k) w.dsq maxDsq boost) = true
      · rw [if_pos hfin] at h
        by_cases hbr : vpc ≤ c + 1
        · rw [if_pos hbr] at h
          simp only [Option.some.injEq, Prod.mk.injEq] at h
          obtain ⟨h1, h2, -⟩ := h
          subst h1; subst h2
          exact List.Perm.refl _
        · rw [if_neg hbr, Option.map_eq_some'] at h
          obtain ⟨⟨s, r, nk⟩, heq, hmk⟩ := h
          simp only [Prod.mk.injEq] at hmk
          obtain ⟨h1, h2, -⟩ := hmk
          subst h1; subst h2
          exact (ih _ _ _ _ _ heq).cons w
      · rw [if_neg hfin, Option.map_eq_some'] at h
        obtain ⟨⟨s, r, nk⟩, heq, hmk⟩ := h
        simp only [Prod.mk.injEq] at hmk
        obtain ⟨h1, h2, -⟩ := hmk
        subst h1; subst h2
        exact List.perm_middle.trans ((ih _ _ _ _ _ heq).cons w)

theorem scanPass_count (vpc : ℕ) (flush : Bool) (boost maxDsq : ℚ) (draws : ℕ → ℚ) :
    ∀ (l : List WItem) (c k : ℕ) (sel rem : List WItem) (k' : ℕ), c < vpc →
      scanPass vpc flush boost maxDsq draws l c k = some (sel, rem, k') →
      sel.length + c ≤ vpc := by
  intro l
  induction l with
  | nil =>
    intro c k sel rem k' hc h
    simp only [scanPass, Option.some.injEq, Prod.mk.injEq] at h
    obtain ⟨h1, -, -⟩ := h
    subst h1
    simpa using hc.le
  | cons w rest ih =>
    intro c k sel rem k' hc h
    by_cases hm0 : maxDsq = 0
    · simp [scanPass, hm0] at h
    · simp only [scanPass, if_neg hm0] at h
      by_cases hfin :
          (if flush then decide (draws k < 1) else selects (draws k) w.dsq maxDsq boost) = true
      · rw [if_pos hfin] at h
        by_cases hbr : vpc ≤ c + 1
        · rw [if_pos hbr] at h
          simp only [Option.some.injEq, Prod.mk.injEq] at h
          obtain ⟨h1, -, -⟩ := h
          subst h1
          simp only [List.length_singleton]
          omega
        · rw [if_neg hbr, Option.map_eq_some'] at h
          obtain ⟨⟨s, r, nk⟩, heq, hmk⟩ := h
          simp only [Prod.mk.injEq] at hmk
          obtain ⟨h1, -, -⟩ := hmk
          subst h1
          have := ih _ _ _ _ _ (by omega) heq
          simp only [List.length_cons]
          omega
      · rw [if_neg hfin, Option.map_eq_some'] at h
        obtain ⟨⟨s, r, nk⟩, heq, hmk⟩ := h
        simp only [Prod.mk.injEq] at hmk
        obtain ⟨h1, -, -⟩ := hmk
        subst h1
        exact ih _ _ _ _ _ hc heq

theorem scanPass_isSome (vpc : ℕ) (flush : Bool) (boost maxDsq : ℚ) (draws : ℕ → ℚ)
    (hm : maxDsq ≠ 0) :
    ∀ (l : List WItem) (c k : ℕ),
      ∃ out, scanPass vpc flush boost maxDsq draws l c k = some out := by
  intro l
  induction l with
  | nil => exact fun c k => ⟨_, rfl⟩
  | cons w rest ih =>
    intro c k
    simp only [scanPass, if_neg hm]
    by_cases hfin :
        (if flush then decide (draws k < 1) else selects (draws k) w.dsq maxDsq boost) = true
    · rw [if_pos hfin]
      by_cases hbr : vpc ≤ c + 1
      · rw [if_pos hbr]; exact ⟨_, rfl⟩
      · rw [if_neg hbr]
        obtain ⟨out, hout⟩ := ih (c + 1) (k + 1)
        rw [hout]
        exact ⟨_, rfl⟩
    · rw [if_neg hfin]
      obtain ⟨out, hout⟩ := ih c (k + 1)
      rw [hout]
      exact ⟨_, rfl⟩

theorem scanPass_flush_take (vpc : ℕ) (boost maxDsq : ℚ) (draws : ℕ → ℚ)
    (hm : maxDsq ≠ 0) (hd : ∀ n, draws n < 1) :
    ∀ (l : List WItem) (c k : ℕ), c < vpc →
      scanPass vpc true boost maxDsq draws l c k =
        some (l.take (vpc - c), l.drop (vpc - c), k + min l.length (vpc - c)) := by
  intro l
  induction l with
  | nil => intro c k hc; simp [scanPass]
  | cons w rest ih =>
    intro c k hc
    simp only [scanPass, if_neg hm]
    have hfin : (if True then decide (draws k < 1)
        else selects (draws k) w.dsq maxDsq boost) = true := by
      simp [hd k]
    rw [if_pos hfin]
    by_cases hbr : vpc ≤ c + 1
    · rw [if_pos hbr]
      have h1 : vpc - c = 1 := by omega
      rw [h1]
      simp only [List.take_succ_cons, List.take_zero, List.drop_succ_cons, List.drop_zero,
        List.length_cons, Option.some.injEq, Prod.mk.injEq, true_and]
      omega
    · rw [if_neg hbr]
      rw [ih (c + 1) (k + 1) (by omega)]
      obtain ⟨d, hdd⟩ : ∃ d, vpc - c = d + 1 := ⟨vpc - c - 1, by omega⟩
      have h2 : vpc - (c + 1) = d := by omega
      rw [h2, hdd]
      simp only [Option.map_some', List.take_succ_cons, List.drop_succ_cons,
        List.length_cons, Option.some.injEq, Prod.mk.injEq, true_and]
      omega

/-! ### Basic lemmas about the chunking loop -/

theorem chunkLoopAux_flatten_perm (vpc : ℕ) (maxDsq : ℚ) (draws : ℕ → ℚ) :
    ∀ (fuel : ℕ) (l : List WItem) (cn k : ℕ) (cs : List (List WItem)),
      chunkLoopAux vpc maxDsq draws fuel l cn k = some cs →
      cs.flatten.Perm l := by
  intro fuel
  induction fuel with
  | zero => intro l cn k cs h; simp [chunkLoopAux] at h
  | succ n ih =>
    intro l cn k cs h
    match l with
    | [] =>
      simp only [chunkLoopAux, Option.some.injEq] at h
      subst h
      exact List.Perm.refl _
    | w :: rest =>
      simp only [chunkLoopAux, Option.bind_eq_some] at h
      obtain ⟨out, heq, hf⟩ := h
      by_cases hsel : out.1.isEmpty
      · rw [if_pos hsel] at hf
        simp only [Option.some.injEq] at hf
        subst hf
        simp
      · rw [if_neg hsel, Option.map_eq_some'] at hf
        obtain ⟨cs', heq2, hmk⟩ := hf
        subst hmk
        simp only [List.flatten_cons]
        exact ((ih _ _ _ _ heq2).append_left out.1).trans
          (scanPass_perm _ _ _ _ _ _ _ _ _ _ _ heq)

theorem chunkLoopAux_nonempty (vpc : ℕ) (maxDsq : ℚ) (draws : ℕ → ℚ) :
    ∀ (fuel : ℕ) (l : List WItem) (cn k : ℕ) (cs : List (List WItem)),
      chunkLoopAux vpc maxDsq draws fuel l cn k = some cs →
      ∀ g ∈ cs, g ≠ [] := by
  intro fuel
  induction fuel with
  | zero => intro l cn k cs h; simp [chunkLoopAux] at h
  | succ n ih =>
    intro l cn k cs h
    match l with
    | [] =>
      simp only [chunkLoopAux, Option.some.injEq] at h
      subst h
      simp
    | w :: rest =>
      simp only [chunkLoopAux, Option.bind_eq_some] at h
      obtain ⟨out, heq, hf⟩ := h
      by_cases hsel : out.1.isEmpty
      · rw [if_pos hsel] at hf
        simp only [Option.some.injEq] at hf
        subst hf
        simp
      · rw [if_neg hsel, Option.map_eq_some'] at hf
        obtain ⟨cs', heq2, hmk⟩ := hf
        subst hmk
        intro g hg
        rcases List.mem_cons.mp hg with hgsel | hgcs
        · subst hgsel
          simpa [List.isEmpty_iff] using hsel
        · exact ih _ _ _ _ heq2 g hgcs

theorem chunkLoopAux_isSome (vpc : ℕ) (maxDsq : ℚ) (draws : ℕ → ℚ) (hm : maxDsq ≠ 0) :
    ∀ (fuel : ℕ) (l : List WItem) (cn k : ℕ), l.length < fuel →
      ∃ cs, chunkLoopAux vpc maxDsq draws fuel l cn k = some cs := by
  intro fuel
  induction fuel with
  | zero => intro l cn k h; omega
  | succ n ih =>
    intro l cn k hlen
    match l with
    | [] => exact ⟨[], rfl⟩
    | w :: rest =>
      simp only [chunkLoopAux]
      obtain ⟨⟨sel, rem, nextk⟩, heq⟩ :=
        scanPass_isSome vpc _ (chunkBoost cn) maxDsq draws hm (w :: rest) 0 k
      rw [heq]
      by_cases hsel : ([] : List WItem) = sel
      · refine ⟨[w :: rest], ?_⟩
        simp [← hsel]
      · have hperm := scanPass_perm _ _ _ _ _ _ _ _ _ _ _ heq
        have hlen2 : sel.length + rem.length = rest.length + 1 := by
          simpa using hperm.length_eq
        have hselpos : 0 < sel.length := by
          cases sel with
          | nil => exact absurd rfl hsel
          | cons a as => simp
        obtain ⟨cs, hcs⟩ := ih rem (cn + 1) nextk (by simp at hlen; omega)
        have hselne : ¬(sel, rem, nextk).1.isEmpty := by
          cases sel with
          | nil => exact absurd rfl hsel
          | cons a as => simp
        rw [Option.some_bind]
        rw [if_neg hselne, hcs]
        exact ⟨_, rfl⟩

/-! ### Faithfulness of the decidable selection test

The source computes `random.random() < min(1.0, (1.0 - distance /
max_distance * 0.8) + chunk_boost)` with `distance = √dsq` and
`max_distance = √maxDsq`.  The Boolean `selects` used in the embedding is
exactly this comparison, restated over the squared quantities. -/

theorem selects_eq_true_iff (draw dsq maxDsq boost : ℚ)
    (h0 : 0 ≤ dsq) (h1 : 0 < maxDsq) :
    selects draw dsq maxDsq boost = true ↔
      (draw : ℝ) <
        min 1 (1 - Real.sqrt (dsq : ℝ) / Real.sqrt (maxDsq : ℝ) * (4/5) + (boost : ℝ)) := by
  have h1R : (0:ℝ) < (maxDsq : ℝ) := by exact_mod_cast h1
  have h0R : (0:ℝ) ≤ (dsq : ℝ) := by exact_mod_cast h0
  set s : ℝ := Real.sqrt (dsq : ℝ) / Real.sqrt (maxDsq : ℝ) with hs
  have hsnn : 0 ≤ s := by positivity
  have hssq : s ^ 2 = (dsq : ℝ) / (maxDsq : ℝ) := by
    rw [hs, div_pow, Real.sq_sqrt h0R, Real.sq_sqrt h1R.le]
  constructor
  · intro h
    simp only [selects, Bool.and_eq_true, decide_eq_true_eq] at h
    obtain ⟨ha, hb, hc⟩ := h
    have ha' : (draw:ℝ) < 1 := by exact_mod_cast ha
    have hb' : (draw:ℝ) < 1 + (boost:ℝ) := by exact_mod_cast hb
    have hc' : (16/25 : ℝ) * ((dsq:ℝ)/(maxDsq:ℝ)) < (1 + (boost:ℝ) - (draw:ℝ))^2 := by
      have h2 : ((16/25 * (dsq / maxDsq) : ℚ) : ℝ) < (((1 + boost - draw)^2 : ℚ) : ℝ) :=
        Rat.cast_lt.mpr hc
      push_cast at h2
      exact h2
    rw [lt_min_iff]
    refine ⟨ha', ?_⟩
    have h45 : (4/5 : ℝ) * s < 1 + (boost:ℝ) - (draw:ℝ) := by
      refine lt_of_pow_lt_pow_left₀ 2 (by linarith) ?_
      calc ((4/5:ℝ) * s)^2 = (16/25) * s^2 := by ring
        _ = (16/25) * ((dsq:ℝ)/(maxDsq:ℝ)) := by rw [hssq]
        _ < (1 + (boost:ℝ) - (draw:ℝ))^2 := hc'
    linarith
  · intro h
    rw [lt_min_iff] at h
    obtain ⟨ha', hbase⟩ := h
    have h45 : (4/5:ℝ) * s < 1 + (boost:ℝ) - (draw:ℝ) := by linarith
    have ht : (0:ℝ) < 1 + (boost:ℝ) - (draw:ℝ) :=
      lt_of_le_of_lt (by positivity) h45
    have hsq : (16/25:ℝ) * ((dsq:ℝ)/(maxDsq:ℝ)) < (1 + (boost:ℝ) - (draw:ℝ))^2 := by
      calc (16/25:ℝ) * ((dsq:ℝ)/(maxDsq:ℝ)) = ((4/5) * s)^2 := by rw [← hssq]; ring
        _ < (1 + (boost:ℝ) - (draw:ℝ))^2 := pow_lt_pow_left₀ h45 (by positivity) (by norm_num)
    simp only [selects, Bool.and_eq_true, decide_eq_true_eq]
    refine ⟨by exact_mod_cast ha', by exact_mod_cast (show (draw:ℝ) < 1 + (boost:ℝ) by linarith),
      ?_⟩
    rw [show ((16:ℚ)/25 * (dsq / maxDsq)) = ((16/25 * (dsq / maxDsq) : ℚ)) from rfl,
      ← Rat.cast_lt (K := ℝ)]
    push_cast
    exact hsq

/-! ### Lemmas about the bounding-box folds -/

theorem foldMin_le_init (f : Vertex → ℚ) (l : List Vertex) :
    ∀ a : ℚ, foldMin f a l ≤ a := by
  induction l with
  | nil => intro a; exact le_refl a
  | cons v rest ih =>
    intro a
    simp only [foldMin, List.foldl_cons]
    exact (ih (min a (f v))).trans (min_le_left _ _)

theorem foldMin_le_mem (f : Vertex → ℚ) (l : List Vertex) :
    ∀ (a : ℚ) (v : Vertex), v ∈ l → foldMin f a l ≤ f v := by
  induction l with
  | nil => intro a v hv; simp at hv
  | cons u rest ih =>
    intro a v hv
    simp only [foldMin, List.foldl_cons]
    rcases List.mem_cons.mp hv with hvu | hvr
    · subst hvu
      exact (foldMin_le_init f rest _).trans (min_le_right _ _)
    · exact ih _ v hvr

theorem le_foldMin (f : Vertex → ℚ) (l : List Vertex) :
    ∀ (a c : ℚ), c ≤ a → (∀ v ∈ l, c ≤ f v) → c ≤ foldMin f a l := by
  induction l with
  | nil => intro a c hc _; exact hc
  | cons u rest ih =>
    intro a c hc hmem
    simp only [foldMin, List.foldl_cons]
    exact ih _ c (le_min hc (hmem u (List.mem_cons_self u rest))) fun v hv => hmem v (List.mem_cons_of_mem _ hv)

theorem init_le_foldMax (f : Vertex → ℚ) (l : List Vertex) :
    ∀ a : ℚ, a ≤ foldMax f a l := by
  induction l with
  | nil => intro a; exact le_refl a
  | cons v rest ih =>
    intro a
    simp only [foldMax, List.foldl_cons]
    exact (le_max_left _ _).trans (ih (max a (f v)))

theorem mem_le_foldMax (f : Vertex → ℚ) (l : List Vertex) :
    ∀ (a : ℚ) (v : Vertex), v ∈ l → f v ≤ foldMax f a l := by
  induction l with
  | nil => intro a v hv; simp at hv
  | cons u rest ih =>
    intro a v hv
    simp only [foldMax, List.foldl_cons]
    rcases List.mem_cons.mp hv with hvu | hvr
    · subst hvu
      exact (le_max_right _ _).trans (init_le_foldMax f rest _)
    · exact ih _ v hvr

theorem foldMax_le (f : Vertex → ℚ) (l : List Vertex) :
    ∀ (a c : ℚ), a ≤ c → (∀ v ∈ l, f v ≤ c) → foldMax f a l ≤ c := by
  induction l with
  | nil => intro a c hc _; exact hc
  | cons u rest ih =>
    intro a c hc hmem
    simp only [foldMax, List.foldl_cons]
    exact ih _ c (max_le hc (hmem u (List.mem_cons_self u rest))) fun v hv => hmem v (List.mem_cons_of_mem _ hv)

theorem foldMin_mul (f : Vertex → ℚ) (k : ℚ) (hk : 0 ≤ k) (l : List Vertex) :
    ∀ a : ℚ, foldMin (fun v => f v * k) (a * k) l = foldMin f a l * k := by
  induction l with
  | nil => intro a; rfl
  | cons u rest ih =>
    intro a
    simp only [foldMin, List.foldl_cons]
    rw [show min (a * k) (f u * k) = min a (f u) * k from (min_mul_of_nonneg _ _ hk).symm]
    exact ih (min a (f u))

theorem foldMax_mul (f : Vertex → ℚ) (k : ℚ) (hk : 0 ≤ k) (l : List Vertex) :
    ∀ a : ℚ, foldMax (fun v => f v * k) (a * k) l = foldMax f a l * k := by
  induction l with
  | nil => intro a; rfl
  | cons u rest ih =>
    intro a
    simp only [foldMax, List.foldl_cons]
    rw [show max (a * k) (f u * k) = max a (f u) * k from (max_mul_of_nonneg _ _ hk).symm]
    exact ih (max a (f u))

/-- Every member of a vertex list lies inside the list's bounding box. -/
theorem mem_insideBBox (l : List Vertex) (v : Vertex) (hv : v ∈ l) :
    insideBBox (calculate_bounding_box l) v := by
  cases l with
  | nil => simp at hv
  | cons u rest =>
    rcases List.mem_cons.mp hv with hvu | hvr
    · subst hvu
      exact ⟨foldMin_le_init _ _ _, init_le_foldMax _ _ _, foldMin_le_init _ _ _,
        init_le_foldMax _ _ _, foldMin_le_init _ _ _, init_le_foldMax _ _ _⟩
    · exact ⟨foldMin_le_mem _ _ _ _ hvr, mem_le_foldMax _ _ _ _ hvr,
        foldMin_le_mem _ _ _ _ hvr, mem_le_foldMax _ _ _ _ hvr,
        foldMin_le_mem _ _ _ _ hvr, mem_le_foldMax _ _ _ _ hvr⟩

/-- The bounding box of a non-empty vertex list is well formed
(componentwise `min ≤ max`). -/
theorem bbox_wf (l : List Vertex) (hl : l ≠ []) :
    (calculate_bounding_box l).minX ≤ (calculate_bounding_box l).maxX ∧
    (calculate_bounding_box l).minY ≤ (calculate_bounding_box l).maxY ∧
    (calculate_bounding_box l).minZ ≤ (calculate_bounding_box l).maxZ := by
  cases l with
  | nil => exact absurd rfl hl
  | cons u rest =>
    exact ⟨(foldMin_le_init _ _ _).trans (init_le_foldMax _ _ _),
      (foldMin_le_init _ _ _).trans (init_le_foldMax _ _ _),
      (foldMin_le_init _ _ _).trans (init_le_foldMax _ _ _)⟩

/-! ### The header scan of `analyze_ply_file` -/

/-- If no line of the file equals `end_header`, the header loop of
`analyze_ply_file` runs forever: past the end of input `readline` keeps
returning the empty string, which never matches, so no amount of fuel makes
the loop finish. -/
theorem headerScan_no_end_header (fileLines : List String)
    (hno : ∀ s ∈ fileLines, s ≠ "end_header") :
    ∀ (fuel i : ℕ), headerScan fileLines fuel i = none := by
  intro fuel
  induction fuel with
  | zero => intro i; rfl
  | succ n ih =>
    intro i
    have hne : readlineStripped fileLines i ≠ "end_header" := by
      rw [readlineStripped]
      rcases lt_or_le i fileLines.length with hlt | hge
      · rw [List.getD_eq_getElem _ _ hlt]
        exact hno _ (List.getElem_mem hlt)
      · rw [List.getD_eq_default _ _ hge]
        decide
    rw [headerScan, if_neg hne]
    exact ih (i + 1)

/-! ### Helpers about `vertexDistances` and the top-level chunker -/

theorem vertexDistances_map_idx (vertices : List Vertex) :
    (vertexDistances vertices).map WItem.idx = List.range vertices.length := by
  simp only [vertexDistances, List.map_map]
  have hcomp : (WItem.idx ∘ fun p : ℕ × Vertex => (⟨distSq p.2, p.1, p.2⟩ : WItem)) =
      Prod.fst := rfl
  rw [hcomp, List.enum_map_fst]

theorem vertexDistances_length (vertices : List Vertex) :
    (vertexDistances vertices).length = vertices.length := by
  simp [vertexDistances]

theorem mem_vertexDistances_vtx (vertices : List Vertex) (w : WItem)
    (hw : w ∈ vertexDistances vertices) : w.vtx ∈ vertices := by
  simp only [vertexDistances, List.mem_map] at hw
  obtain ⟨p, hp, hpw⟩ := hw
  have hv : w.vtx = p.2 := by rw [← hpw]
  rw [hv, ← List.enum_map_snd vertices]
  exact List.mem_map_of_mem Prod.snd hp

theorem scaleVertices_length (vertices : List Vertex) :
    (scaleVertices vertices).length = vertices.length := by
  rw [scaleVertices]
  split
  · simp
  · rfl

theorem scanPass_zero_none (vpc : ℕ) (flush : Bool) (boost : ℚ) (draws : ℕ → ℚ)
    (w : WItem) (rest : List WItem) (c k : ℕ) :
    scanPass vpc flush boost 0 draws (w :: rest) c k = none := by
  simp [scanPass]

/-- Definitional unfolding of one pass of the chunking loop (used to evaluate
the loop on concrete inputs). -/
theorem chunkLoopAux_succ_cons (vpc : ℕ) (maxDsq : ℚ) (draws : ℕ → ℚ) (fuel : ℕ)
    (w : WItem) (rest : List WItem) (cn k : ℕ) :
    chunkLoopAux vpc maxDsq draws (fuel + 1) (w :: rest) cn k =
      (scanPass vpc (decide (((w :: rest).length : ℚ) ≤ (vpc : ℚ) * (3/2)))
          (chunkBoost cn) maxDsq draws (w :: rest) 0 k).bind fun out =>
        if out.1.isEmpty then some [w :: rest]
        else
          (chunkLoopAux vpc maxDsq draws fuel out.2.1 (cn + 1) out.2.2).map
            fun cs => out.1 :: cs := rfl

/-- Whenever the squared maximum distance is non-zero (some vertex is off the
origin), the radial chunker terminates normally: the fuel `length + 1` always
suffices and no division by zero occurs. -/
theorem chunk_vertices_radial_isSome (targetBytes : ℕ) (draws : ℕ → ℚ)
    (vertices : List Vertex) (hm : maxDistSq vertices ≠ 0) :
    ∃ gs, chunk_vertices_radial targetBytes draws vertices = some gs := by
  obtain ⟨cs, hcs⟩ := chunkLoopAux_isSome (verticesPerChunk targetBytes)
    (maxDistSq vertices) draws hm
    (((vertexDistances vertices).mergeSort fun a b => decide (a.dsq ≤ b.dsq)).length + 1)
    ((vertexDistances vertices).mergeSort fun a b => decide (a.dsq ≤ b.dsq)) 1 0 (by omega)
  refine ⟨cs.map fun c => c.map WItem.vtx, ?_⟩
  simp only [chunk_vertices_radial, chunkVerticesRadialIdx]
  rw [hcs]
  rfl

/-! ### The claims -/

/-- C1: for every non-empty finite vertex list, a (normally terminating) run
of `chunk_vertices_radial` partitions the input exactly: the concatenation of
the produced groups of working items is a permutation of the enumerated input
(each original vertex occurrence appears exactly once), and hence the
multiset of original indices covered by the groups is exactly
`{0, …, n-1}`, each index once — membership judged by original index, not by
coordinate equality.  The projection of these groups is precisely what
`chunk_vertices_radial` returns. -/
theorem radial_partition_exact (targetBytes : ℕ) (draws : ℕ → ℚ) (vertices : List Vertex)
    (cs : List (List WItem)) (hne : vertices ≠ [])
    (h : chunkVerticesRadialIdx targetBytes draws vertices = some cs) :
    chunk_vertices_radial targetBytes draws vertices =
      some (cs.map fun c => c.map WItem.vtx) ∧
    cs.flatten.Perm (vertexDistances vertices) ∧
    (cs.flatten.map WItem.idx).Perm (List.range vertices.length) := by
  have h' : chunkLoopAux (verticesPerChunk targetBytes) (maxDistSq vertices) draws
      (((vertexDistances vertices).mergeSort fun a b => decide (a.dsq ≤ b.dsq)).length + 1)
      ((vertexDistances vertices).mergeSort fun a b => decide (a.dsq ≤ b.dsq)) 1 0 =
        some cs := by
    simpa only [chunkVerticesRadialIdx] using h
  have hsorted := chunkLoopAux_flatten_perm _ _ _ _ _ _ _ _ h'
  have hperm : cs.flatten.Perm (vertexDistances vertices) :=
    hsorted.trans (List.mergeSort_perm (vertexDistances vertices) _)
  refine ⟨?_, hperm, ?_⟩
  · rw [chunk_vertices_radial, h]
    rfl
  · have := hperm.map WItem.idx
    rwa [vertexDistances_map_idx] at this

/-- C4: every group in the sequence returned by `chunk_vertices_radial` is
non-empty, for any input and any draw stream. -/
theorem radial_chunks_nonempty (targetBytes : ℕ) (draws : ℕ → ℚ) (vertices : List Vertex)
    (gs : List (List Vertex))
    (h : chunk_vertices_radial targetBytes draws vertices = some gs) :
    ∀ g ∈ gs, g ≠ [] := by
  rw [chunk_vertices_radial] at h
  cases hi : chunkVerticesRadialIdx targetBytes draws vertices with
  | none => rw [hi] at h; simp at h
  | some cs =>
    rw [hi] at h
    simp only [Option.map_some', Option.some.injEq] at h
    subst h
    have hi' : chunkLoopAux (verticesPerChunk targetBytes) (maxDistSq vertices) draws
        (((vertexDistances vertices).mergeSort fun a b => decide (a.dsq ≤ b.dsq)).length + 1)
        ((vertexDistances vertices).mergeSort fun a b => decide (a.dsq ≤ b.dsq)) 1 0 =
          some cs := by
      simpa only [chunkVerticesRadialIdx] using hi
    intro g hg
    simp only [List.mem_map] at hg
    obtain ⟨c, hc, hcg⟩ := hg
    subst hcg
    have hcne := chunkLoopAux_nonempty _ _ _ _ _ _ _ _ hi' c hc
    intro hmap
    exact hcne (List.map_eq_nil_iff.mp hmap)

/-- C10: any group produced by a single probability scan of
`chunk_vertices_radial` contains at most
`vertices_per_chunk = max 1 (target_chunk_size_bytes / 20)` vertices — for
any input list, any boost, any draw stream, and any value of the flush flag
(so the cap also binds during the flush passes whose probability is 1.0). -/
theorem scan_select_le_vpc (targetBytes : ℕ) (flush : Bool) (boost maxDsq : ℚ)
    (draws : ℕ → ℚ) (l : List WItem) (k : ℕ) (sel rem : List WItem) (nextk : ℕ)
    (h : scanPass (verticesPerChunk targetBytes) flush boost maxDsq draws l 0 k =
      some (sel, rem, nextk)) :
    sel.length ≤ verticesPerChunk targetBytes := by
  have h0 : 0 < verticesPerChunk targetBytes := lt_of_lt_of_le one_pos (le_max_left _ _)
  simpa using scanPass_count (verticesPerChunk targetBytes) flush boost maxDsq draws
    l 0 k sel rem nextk h0 h

/-- C3 (amended): a pass of the loop whose remaining count satisfies the
flush condition `len ≤ vertices_per_chunk * 1.5` selects every scanned vertex
with probability 1.0, but the scan still stops once the group reaches
`vertices_per_chunk` vertices; the emitted group is therefore the first
`min(len, vertices_per_chunk)` remaining vertices in ascending-distance
order — all remaining vertices only when `len ≤ vertices_per_chunk`. -/
theorem flush_pass_takes_prefix (targetBytes : ℕ) (maxDsq : ℚ) (draws : ℕ → ℚ)
    (fuel : ℕ) (remaining : List WItem) (chunkNum k : ℕ)
    (hne : remaining ≠ [])
    (hflush : (remaining.length : ℚ) ≤ (verticesPerChunk targetBytes : ℚ) * (3/2))
    (hm : maxDsq ≠ 0) (hd : ∀ n, 0 ≤ draws n ∧ draws n < 1) :
    chunkLoopAux (verticesPerChunk targetBytes) maxDsq draws (fuel + 1)
        remaining chunkNum k =
      (chunkLoopAux (verticesPerChunk targetBytes) maxDsq draws fuel
          (remaining.drop (verticesPerChunk targetBytes)) (chunkNum + 1)
          (k + min remaining.length (verticesPerChunk targetBytes))).map
        fun cs => remaining.take (verticesPerChunk targetBytes) :: cs := by
  obtain ⟨w, rest, rfl⟩ : ∃ w rest, remaining = w :: rest := by
    cases remaining with
    | nil => exact absurd rfl hne
    | cons a as => exact ⟨a, as, rfl⟩
  have hvpc1 : 1 ≤ verticesPerChunk targetBytes := le_max_left _ _
  simp only [chunkLoopAux]
  rw [show decide (((w :: rest).length : ℚ) ≤ (verticesPerChunk targetBytes : ℚ) * (3/2)) =
      true from decide_eq_true hflush]
  rw [scanPass_flush_take (verticesPerChunk targetBytes) (chunkBoost chunkNum) maxDsq draws
    hm (fun n => (hd n).2) (w :: rest) 0 k (by omega)]
  rw [Option.some_bind]
  have htake : ¬((w :: rest).take (verticesPerChunk targetBytes - 0)).isEmpty = true := by
    rw [Nat.sub_zero]
    obtain ⟨m, hmv⟩ : ∃ m, verticesPerChunk targetBytes = m + 1 :=
      ⟨verticesPerChunk targetBytes - 1, by omega⟩
    rw [hmv]
    simp
  rw [if_neg htake]
  simp only [Nat.sub_zero]

/-- C9: the header loop of `analyze_ply_file` on a file that contains no
`end_header` line never finishes, whatever the amount of fuel: at end of
file `readline` yields `""`, which never matches, so the `while True:` loop
spins forever instead of aborting with an error. -/
theorem analyze_missing_end_header_loops :
    ∀ (fuel i : ℕ),
      headerScan ["ply", "format ascii 1.0", "element vertex 3"] fuel i = none := by
  apply headerScan_no_end_header
  intro s hs
  fin_cases hs <;> decide

/-! ### Scale normalization (C8) -/

theorem foldMin_map_scale (f : Vertex → ℚ) (k : ℚ) (hk : 0 ≤ k)
    (hf : ∀ u, f (scaleVertex k u) = f u * k) (l : List Vertex) (a : ℚ) :
    foldMin f (a * k) (l.map (scaleVertex k)) = foldMin f a l * k := by
  rw [foldMin, List.foldl_map]
  have hfun : (fun m u => min m (f (scaleVertex k u))) = fun m u => min m (f u * k) := by
    funext m u
    rw [hf]
  rw [hfun]
  exact foldMin_mul f k hk l a

theorem foldMax_map_scale (f : Vertex → ℚ) (k : ℚ) (hk : 0 ≤ k)
    (hf : ∀ u, f (scaleVertex k u) = f u * k) (l : List Vertex) (a : ℚ) :
    foldMax f (a * k) (l.map (scaleVertex k)) = foldMax f a l * k := by
  rw [foldMax, List.foldl_map]
  have hfun : (fun m u => max m (f (scaleVertex k u))) = fun m u => max m (f u * k) := by
    funext m u
    rw [hf]
  rw [hfun]
  exact foldMax_mul f k hk l a

/-- Scaling every vertex by a nonnegative factor scales the bounding box of a
non-empty list componentwise. -/
theorem bbox_map_scale (k : ℚ) (hk : 0 ≤ k) (v : Vertex) (rest : List Vertex) :
    calculate_bounding_box ((v :: rest).map (scaleVertex k)) =
      ⟨(calculate_bounding_box (v :: rest)).minX * k,
       (calculate_bounding_box (v :: rest)).minY * k,
       (calculate_bounding_box (v :: rest)).minZ * k,
       (calculate_bounding_box (v :: rest)).maxX * k,
       (calculate_bounding_box (v :: rest)).maxY * k,
       (calculate_bounding_box (v :: rest)).maxZ * k⟩ := by
  simp only [List.map_cons, calculate_bounding_box]
  congr 1
  · exact foldMin_map_scale _ k hk (fun u => rfl) rest v.x
  · exact foldMin_map_scale _ k hk (fun u => rfl) rest v.y
  · exact foldMin_map_scale _ k hk (fun u => rfl) rest v.z
  · exact foldMax_map_scale _ k hk (fun u => rfl) rest v.x
  · exact foldMax_map_scale _ k hk (fun u => rfl) rest v.y
  · exact foldMax_map_scale _ k hk (fun u => rfl) rest v.z

/-- C8: the scale normalizer is the identity when the maximum extent is at
most 50; when the extent exceeds 50 it multiplies every coordinate in place
by `20 / extent`, and the resulting maximum extent is then exactly 20. -/
theorem scale_normalizer_spec (vertices : List Vertex) :
    (maxDimension (calculate_bounding_box vertices) ≤ 50 →
      scaleVertices vertices = vertices) ∧
    (50 < maxDimension (calculate_bounding_box vertices) →
      scaleVertices vertices =
        vertices.map (scaleVertex (20 / maxDimension (calculate_bounding_box vertices))) ∧
      maxDimension (calculate_bounding_box (scaleVertices vertices)) = 20) := by
  constructor
  · intro hle
    rw [scaleVertices]
    exact if_neg (not_lt.mpr hle)
  · intro hgt
    have hmap : scaleVertices vertices =
        vertices.map (scaleVertex (20 / maxDimension (calculate_bounding_box vertices))) := by
      rw [scaleVertices]
      exact if_pos hgt
    refine ⟨hmap, ?_⟩
    match vertices with
    | [] =>
      exfalso
      norm_num [calculate_bounding_box, maxDimension] at hgt
    | v :: rest =>
      set md := maxDimension (calculate_bounding_box (v :: rest)) with hmd
      have hmd0 : (0:ℚ) < md := lt_trans (by norm_num) hgt
      have hk : (0:ℚ) ≤ 20 / md := by positivity
      rw [hmap, bbox_map_scale _ hk v rest]
      rw [maxDimension]
      simp only
      simp only [← sub_mul]
      rw [← max_mul_of_nonneg _ _ hk, ← max_mul_of_nonneg _ _ hk]
      rw [← maxDimension, ← hmd]
      rw [mul_comm]
      exact div_mul_cancel₀ 20 (ne_of_gt hmd0)

/-! ### The anchor-point bounding box (C7) -/

/-- Appending the 8 anchor vertices to any non-empty vertex list lying inside
a well-formed box makes the bounding box of the combined list exactly that
box. -/
theorem bbox_append_anchors (B : BBox) (v : Vertex) (rest : List Vertex)
    (hin : ∀ u ∈ v :: rest, insideBBox B u)
    (hx : B.minX ≤ B.maxX) (hy : B.minY ≤ B.maxY) (hz : B.minZ ≤ B.maxZ) :
    calculate_bounding_box ((v :: rest) ++ anchor_points B) = B := by
  obtain ⟨b1, b2, b3, b4, b5, b6⟩ := B
  simp only at hx hy hz
  rw [List.cons_append]
  simp only [calculate_bounding_box]
  have hmemrest : ∀ u ∈ rest ++ anchor_points ⟨b1, b2, b3, b4, b5, b6⟩,
      insideBBox ⟨b1, b2, b3, b4, b5, b6⟩ u ∨ u ∈ anchor_points ⟨b1, b2, b3, b4, b5, b6⟩ := by
    intro u hu
    rcases List.mem_append.mp hu with h | h
    · exact Or.inl (hin u (List.mem_cons_of_mem _ h))
    · exact Or.inr h
  have hvin := hin v (List.mem_cons_self v rest)
  congr 1
  · refine le_antisymm ?_ ?_
    · refine foldMin_le_mem _ _ _ (⟨b1, b2, b3, 0, 0, 0⟩ : Vertex) ?_
      exact List.mem_append.mpr (Or.inr (by simp [anchor_points]))
    · refine le_foldMin _ _ _ _ hvin.1 ?_
      intro u hu
      rcases hmemrest u hu with h | h
      · exact h.1
      · fin_cases h <;> first | exact le_rfl | exact hx
  · refine le_antisymm ?_ ?_
    · refine foldMin_le_mem _ _ _ (⟨b1, b2, b3, 0, 0, 0⟩ : Vertex) ?_
      exact List.mem_append.mpr (Or.inr (by simp [anchor_points]))
    · refine le_foldMin _ _ _ _ hvin.2.2.1 ?_
      intro u hu
      rcases hmemrest u hu with h | h
      · exact h.2.2.1
      · fin_cases h <;> first | exact le_rfl | exact hy
  · refine le_antisymm ?_ ?_
    · refine foldMin_le_mem _ _ _ (⟨b1, b2, b3, 0, 0, 0⟩ : Vertex) ?_
      exact List.mem_append.mpr (Or.inr (by simp [anchor_points]))
    · refine le_foldMin _ _ _ _ hvin.2.2.2.2.1 ?_
      intro u hu
      rcases hmemrest u hu with h | h
      · exact h.2.2.2.2.1
      · fin_cases h <;> first | exact le_rfl | exact hz
  · refine le_antisymm ?_ ?_
    · refine foldMax_le _ _ _ _ hvin.2.1 ?_
      intro u hu
      rcases hmemrest u hu with h | h
      · exact h.2.1
      · fin_cases h <;> first | exact le_rfl | exact hx
    · refine mem_le_foldMax _ _ _ (⟨b4, b2, b3, 0, 0, 0⟩ : Vertex) ?_
      exact List.mem_append.mpr (Or.inr (by simp [anchor_points]))
  · refine le_antisymm ?_ ?_
    · refine foldMax_le _ _ _ _ hvin.2.2.2.1 ?_
      intro u hu
      rcases hmemrest u hu with h | h
      · exact h.2.2.2.1
      · fin_cases h <;> first | exact le_rfl | exact hy
    · refine mem_le_foldMax _ _ _ (⟨b1, b5, b3, 0, 0, 0⟩ : Vertex) ?_
      exact List.mem_append.mpr (Or.inr (by simp [anchor_points]))
  · refine le_antisymm ?_ ?_
    · refine foldMax_le _ _ _ _ hvin.2.2.2.2.2 ?_
      intro u hu
      rcases hmemrest u hu with h | h
      · exact h.2.2.2.2.2
      · fin_cases h <;> first | exact le_rfl | exact hz
    · refine mem_le_foldMax _ _ _ (⟨b1, b2, b6, 0, 0, 0⟩ : Vertex) ?_
      exact List.mem_append.mpr (Or.inr (by simp [anchor_points]))

/-- Summary of a successful run of `chunk_vertices_radial`: groups are
non-empty, their lengths sum to the input length, and their members are
members of the input list. -/
theorem chunk_vertices_radial_groups (targetBytes : ℕ) (draws : ℕ → ℚ)
    (vertices : List Vertex) (gs : List (List Vertex))
    (h : chunk_vertices_radial targetBytes draws vertices = some gs) :
    (∀ g ∈ gs, g ≠ []) ∧ (gs.map List.length).sum = vertices.length ∧
      ∀ g ∈ gs, ∀ v ∈ g, v ∈ vertices := by
  rw [chunk_vertices_radial] at h
  cases hi : chunkVerticesRadialIdx targetBytes draws vertices with
  | none => rw [hi] at h; simp at h
  | some cs =>
    rw [hi] at h
    simp only [Option.map_some', Option.some.injEq] at h
    subst h
    have hi' : chunkLoopAux (verticesPerChunk targetBytes) (maxDistSq vertices) draws
        (((vertexDistances vertices).mergeSort fun a b => decide (a.dsq ≤ b.dsq)).length + 1)
        ((vertexDistances vertices).mergeSort fun a b => decide (a.dsq ≤ b.dsq)) 1 0 =
          some cs := by
      simpa only [chunkVerticesRadialIdx] using hi
    have hperm : cs.flatten.Perm (vertexDistances vertices) :=
      (chunkLoopAux_flatten_perm _ _ _ _ _ _ _ _ hi').trans
        (List.mergeSort_perm (vertexDistances vertices) _)
    refine ⟨?_, ?_, ?_⟩
    · intro g hg
      simp only [List.mem_map] at hg
      obtain ⟨c, hc, hcg⟩ := hg
      subst hcg
      intro hmap
      exact chunkLoopAux_nonempty _ _ _ _ _ _ _ _ hi' c hc (List.map_eq_nil_iff.mp hmap)
    · have h1 : (cs.map fun c => c.map WItem.vtx).map List.length = cs.map List.length := by
        simp [List.map_map, Function.comp]
      rw [h1, ← List.length_flatten, hperm.length_eq, vertexDistances_length]
    · intro g hg v hv
      simp only [List.mem_map] at hg
      obtain ⟨c, hc, hcg⟩ := hg
      subst hcg
      simp only [List.mem_map] at hv
      obtain ⟨w, hw, hwv⟩ := hv
      subst hwv
      refine mem_vertexDistances_vtx vertices w (hperm.mem_iff.mp ?_)
      exact List.mem_flatten.mpr ⟨c, hc, hw⟩

/-- C5: on the empty vertex set the bounding box is the all-zero box, the
radial chunker returns zero chunks without faulting, and the pipeline still
produces a manifest with `chunk_count = 0` (and `total_vertices = 0`). -/
theorem empty_input_pipeline (targetBytes : ℕ) (draws : ℕ → ℚ) :
    calculate_bounding_box [] = ⟨0, 0, 0, 0, 0, 0⟩ ∧
    chunk_vertices_radial targetBytes draws [] = some [] ∧
    chunk_ply_file targetBytes draws [] =
      some { total_vertices := 0, chunk_count := 0,
             overall_bounding_box := ⟨0, 0, 0, 0, 0, 0⟩, chunks := [] } := by
  have hscale : scaleVertices [] = [] := by
    rw [scaleVertices]
    norm_num [calculate_bounding_box, maxDimension]
  have hradial : chunk_vertices_radial targetBytes draws [] = some [] := by
    simp only [chunk_vertices_radial, chunkVerticesRadialIdx, vertexDistances, List.enum_nil,
      List.map_nil, List.mergeSort_nil, List.length_nil]
    rfl
  refine ⟨rfl, hradial, ?_⟩
  simp only [chunk_ply_file, hscale, hradial, Option.map_some']
  rfl

/-- C6: whenever `chunk_ply_file` completes, the manifest's `total_vertices`
equals the sum of the chunk descriptors' `vertex_count` fields, and both
equal the number of decoded input vertices. -/
theorem manifest_totals (targetBytes : ℕ) (draws : ℕ → ℚ) (vertices : List Vertex)
    (m : Manifest) (h : chunk_ply_file targetBytes draws vertices = some m) :
    m.total_vertices = (m.chunks.map ChunkInfo.vertex_count).sum ∧
    m.total_vertices = vertices.length := by
  simp only [chunk_ply_file] at h
  rw [Option.map_eq_some'] at h
  obtain ⟨gs, hc, hm⟩ := h
  subst hm
  · have hsum := (chunk_vertices_radial_groups _ _ _ _ hc).2.1
    have h1 : ((gs.enum.map fun p =>
        ({ vertex_count := p.2.length, bounding_box := calculate_bounding_box p.2,
           priority := p.1 } : ChunkInfo)).map ChunkInfo.vertex_count) =
        gs.map List.length := by
      rw [List.map_map]
      rw [show (ChunkInfo.vertex_count ∘ fun p : ℕ × List Vertex =>
        ({ vertex_count := p.2.length, bounding_box := calculate_bounding_box p.2,
           priority := p.1 } : ChunkInfo)) = List.length ∘ Prod.snd from rfl]
      rw [← List.map_map, List.enum_map_snd]
    constructor
    · simp only [h1, hsum]
    · exact scaleVertices_length vertices

/-- C7: for every chunk of a run, the vertex list actually written to the
chunk file (real vertices plus the 8 anchors at the corners of the overall
post-scaling bounding box) has bounding box exactly the overall post-scaling
bounding box, while the chunk descriptors recorded in the manifest carry the
bounding box of each group's real vertices only. -/
theorem chunk_anchor_bbox (targetBytes : ℕ) (draws : ℕ → ℚ) (vertices : List Vertex)
    (gs : List (List Vertex)) (g : List Vertex)
    (h : chunk_vertices_radial targetBytes draws (scaleVertices vertices) = some gs)
    (hg : g ∈ gs) :
    calculate_bounding_box
        (write_ply_chunk_vertices g (calculate_bounding_box (scaleVertices vertices))) =
      calculate_bounding_box (scaleVertices vertices) ∧
    (chunk_ply_file targetBytes draws vertices).map
        (fun m => m.chunks.map ChunkInfo.bounding_box) =
      some (gs.map calculate_bounding_box) := by
  obtain ⟨hne, -, hmem⟩ := chunk_vertices_radial_groups _ _ _ _ h
  obtain ⟨v, grest, rfl⟩ : ∃ v grest, g = v :: grest := by
    cases g with
    | nil => exact absurd rfl (hne _ hg)
    | cons a as => exact ⟨a, as, rfl⟩
  have hscne : scaleVertices vertices ≠ [] :=
    List.ne_nil_of_mem (hmem _ hg v (List.mem_cons_self v grest))
  have hwf := bbox_wf (scaleVertices vertices) hscne
  constructor
  · rw [write_ply_chunk_vertices]
    exact bbox_append_anchors _ v grest
      (fun u hu => mem_insideBBox _ u (hmem _ hg u hu)) hwf.1 hwf.2.1 hwf.2.2
  · simp only [chunk_ply_file, h, Option.map_some']
    congr 1
    rw [List.map_map]
    rw [show (ChunkInfo.bounding_box ∘ fun p : ℕ × List Vertex =>
      ({ vertex_count := p.2.length, bounding_box := calculate_bounding_box p.2,
         priority := p.1 } : ChunkInfo)) = calculate_bounding_box ∘ Prod.snd from rfl]
    rw [← List.map_map, List.enum_map_snd]

/-- C2 (code bug): on a non-empty input all of whose vertices coincide with
the origin, `max_distance = 0` and the very first probability computation
`distance / max_distance` raises `ZeroDivisionError`, so
`chunk_vertices_radial` terminates abnormally (`none`) instead of returning —
for every byte budget and every draw stream. -/
theorem radial_origin_division_error (targetBytes : ℕ) (draws : ℕ → ℚ) :
    chunk_vertices_radial targetBytes draws [vO] = none := by
  have hvd : vertexDistances [vO] = [⟨distSq vO, 0, vO⟩] := rfl
  have hmd : maxDistSq [vO] = 0 := by with_unfolding_all rfl
  have hsort : (vertexDistances [vO]).mergeSort (fun a b => decide (a.dsq ≤ b.dsq)) =
      [⟨distSq vO, 0, vO⟩] := by
    rw [hvd]
    simp
  simp only [chunk_vertices_radial, chunkVerticesRadialIdx]
  rw [hsort, hmd]
  rw [show ([(⟨distSq vO, 0, vO⟩ : WItem)].length + 1) = 1 + 1 from rfl]
  rw [chunkLoopAux_succ_cons, scanPass_zero_none]
  rfl

/-- C3 (counterexample): with `vertices_per_chunk = max 1 (40 / 20) = 2` and
three remaining vertices, the (first) pass is a flush pass
(`3 ≤ 2 × 1.5`) and every draw `1/2 ∈ [0,1)` is below the overridden
probability `1.0`, yet the emitted group contains only 2 of the 3 vertices
that were remaining at the start of the pass: the break at
`len(current_chunk) >= vertices_per_chunk` also fires during flush passes, so
the claim that such a pass selects *every* remaining vertex is false. -/
theorem flush_pass_cap_cex :
    (([vB1, vB2, vB3].length : ℚ) ≤ (verticesPerChunk 40 : ℚ) * (3/2)) ∧
    ((0:ℚ) ≤ halfDraws 0 ∧ halfDraws 0 < 1) ∧
    chunk_vertices_radial 40 halfDraws [vB1, vB2, vB3] = some [[vB1, vB2], [vB3]] := by
  with_unfolding_all decide

/-! ### Concrete-input witnesses for the hypotheses of the claims above -/

theorem radial_partition_exact_witness :
    chunk_vertices_radial 40 halfDraws [vB1] =
      some (([[wB1]] : List (List WItem)).map fun c => c.map WItem.vtx) ∧
    ([[wB1]] : List (List WItem)).flatten.Perm (vertexDistances [vB1]) ∧
    (([[wB1]] : List (List WItem)).flatten.map WItem.idx).Perm (List.range [vB1].length) :=
  radial_partition_exact 40 halfDraws [vB1] [[wB1]] (by simp) (by with_unfolding_all decide)

theorem radial_chunks_nonempty_witness : [vB1] ≠ ([] : List Vertex) :=
  radial_chunks_nonempty 40 halfDraws [vB1] [[vB1]] (by with_unfolding_all decide)
    [vB1] (by simp)

theorem scan_select_le_vpc_witness :
    ([wB1, wB2] : List WItem).length ≤ verticesPerChunk 40 :=
  scan_select_le_vpc 40 true (chunkBoost 1) 9 halfDraws [wB1, wB2, wB3] 0
    [wB1, wB2] [wB3] 2 (by with_unfolding_all decide)

theorem flush_pass_takes_prefix_witness :
    chunkLoopAux (verticesPerChunk 40) 9 halfDraws (3 + 1) [wB1, wB2, wB3] 1 0 =
      (chunkLoopAux (verticesPerChunk 40) 9 halfDraws 3
          ([wB1, wB2, wB3].drop (verticesPerChunk 40)) (1 + 1)
          (0 + min [wB1, wB2, wB3].length (verticesPerChunk 40))).map
        fun cs => [wB1, wB2, wB3].take (verticesPerChunk 40) :: cs :=
  flush_pass_takes_prefix 40 9 halfDraws 3 [wB1, wB2, wB3] 1 0 (by simp)
    (by with_unfolding_all decide) (by with_unfolding_all decide)
    (fun n =>
      ⟨by show (0:ℚ) ≤ 1/2; with_unfolding_all decide,
       by show (1:ℚ)/2 < 1; with_unfolding_all decide⟩)

theorem manifest_totals_witness :
    demoManifest.total_vertices = (demoManifest.chunks.map ChunkInfo.vertex_count).sum ∧
    demoManifest.total_vertices = [vB1].length :=
  manifest_totals 40 halfDraws [vB1] demoManifest (by with_unfolding_all decide)

theorem chunk_anchor_bbox_witness :
    calculate_bounding_box
        (write_ply_chunk_vertices [vB1] (calculate_bounding_box (scaleVertices [vB1]))) =
      calculate_bounding_box (scaleVertices [vB1]) ∧
    (chunk_ply_file 40 halfDraws [vB1]).map
        (fun m => m.chunks.map ChunkInfo.bounding_box) =
      some ([[vB1]].map calculate_bounding_box) :=
  chunk_anchor_bbox 40 halfDraws [vB1] [[vB1]] [vB1] (by with_unfolding_all decide) (by simp)

theorem scale_normalizer_spec_witness :
    scaleVertices demoVs =
      demoVs.map (scaleVertex (20 / maxDimension (calculate_bounding_box demoVs))) ∧
    maxDimension (calculate_bounding_box (scaleVertices demoVs)) = 20 :=
  (scale_normalizer_spec demoVs).2 (by with_unfolding_all decide)

end PLYChunker
